import Mathlib

/-!
# Verification of the sparse N-dimensional matrix (`src/matrix.h`, `src/main.cpp`)

Shallow embedding of the templated `matrix<T, default_value, N>` class.

The C++ class stores cells in a `std::map<std::vector<size_t>, T>` shared via
`shared_ptr`, together with a single shared `std::vector<size_t>` accumulator
that chained `operator[]` calls fill in.  We model the pair (map, accumulator)
as an explicit state `Mat`:

* the `std::map` becomes an association list sorted by the lexicographic
  order on keys (`lexLt`, mirroring `std::vector`'s `operator<`);
* `matrix::operator[]` becomes `topIndex` (clears the accumulator and seeds
  it, as `vector_->clear(); vector_->emplace_back(index)` does);
* `Proxy::operator[]` becomes `proxyIndex` (appends, as
  `vector_->emplace_back(index)` does);
* `Proxy::operator const T &` becomes `proxyDeref` (a `map::find`, returning
  the default when absent);
* `Proxy::operator=` becomes `proxyAssign`: `map::erase` when the assigned
  value equals the default, otherwise `map::emplace` — note that
  `std::map::emplace` does *not* overwrite an existing entry;
* the `static_assert(Index == N)` guards on the terminal proxy operations are
  modelled by `proxyDerefChecked` / `proxyAssignChecked`, which yield `none`
  exactly when the accumulated index count differs from `N`;
* `matrix::iterator` walks the map in key order producing
  `vector_to_tuple` tuples; `entries` is the full produced sequence and
  `mbegin` / `mend` are the begin/end positions (suffixes of the entry list).

Element type `T` is instantiated at `Nat` (the demo uses `size_t`); the
compile-time default value is an explicit parameter `d`.
-/

/-- Lexicographic strict order on coordinate vectors, as `std::vector`'s
`operator<` (and hence `std::map`'s key order) computes it. -/
def lexLt : List Nat → List Nat → Bool
  | [], [] => false
  | [], _ :: _ => true
  | _ :: _, [] => false
  | a :: as, b :: bs => if a < b then true else if b < a then false else lexLt as bs

/-- `std::map::find` followed by the absent test: the stored value, if the
key is present. -/
def mapFind : List (List Nat × Nat) → List Nat → Option Nat
  | [], _ => none
  | p :: t, k => if p.1 = k then some p.2 else mapFind t k

/-- `std::map::erase(key)`: removes the entry with key `k` (every entry so
keyed, in an unconstrained list; a well-formed map has at most one). -/
def mapErase : List (List Nat × Nat) → List Nat → List (List Nat × Nat)
  | [], _ => []
  | p :: t, k => if p.1 = k then mapErase t k else p :: mapErase t k

/-- `std::map::emplace(key, value)`: inserts `(k, v)` at its sorted position
if no entry with key `k` exists; otherwise leaves the map unchanged. -/
def mapEmplace (l : List (List Nat × Nat)) (k : List Nat) (v : Nat) :
    List (List Nat × Nat) :=
  match l with
  | [] => [(k, v)]
  | p :: t =>
    if lexLt k p.1 then (k, v) :: p :: t
    else if p.1 = k then p :: t
    else p :: mapEmplace t k v

/-- The observable state of one `matrix` object: the shared map and the
shared coordinate accumulator. -/
structure Mat where
  map : List (List Nat × Nat)
  vec : List Nat
deriving DecidableEq

/-- `matrix::matrix()`: fresh empty map and empty accumulator. -/
def mkMatrix : Mat := ⟨[], []⟩

/-- `matrix::operator[](index)`: clears the accumulator, seeds it with
`index` (entering state `Building(1)`). -/
def topIndex (m : Mat) (i : Nat) : Mat := ⟨m.map, [i]⟩

/-- `Proxy<Index>::operator[](index)`: appends `index` to the shared
accumulator (state `Building(k) → Building(k+1)`). -/
def proxyIndex (m : Mat) (i : Nat) : Mat := ⟨m.map, m.vec ++ [i]⟩

/-- `Proxy<N>::operator const T &`: `map_->find(*vector_)`, the default
value when absent. -/
def proxyDeref (d : Nat) (m : Mat) : Nat :=
  (mapFind m.map m.vec).getD d

/-- `Proxy<N>::operator=(value)`: erase on the default value, otherwise
`map::emplace`. -/
def proxyAssign (d : Nat) (m : Mat) (v : Nat) : Mat :=
  if v = d then ⟨mapErase m.map m.vec, m.vec⟩
  else ⟨mapEmplace m.map m.vec v, m.vec⟩

/-- The `static_assert(Index == N)` on `Proxy::operator const T &`: the read
exists only at accumulated depth `N`; at any other depth the program does
not compile, modelled as `none`. -/
def proxyDerefChecked (d : Nat) (N : Nat) (m : Mat) : Option Nat :=
  if m.vec.length = N then some (proxyDeref d m) else none

/-- The `static_assert(Index == N)` on `Proxy::operator=`: the write exists
only at accumulated depth `N`; at any other depth the program does not
compile, modelled as `none`. -/
def proxyAssignChecked (d : Nat) (N : Nat) (m : Mat) (v : Nat) : Option Mat :=
  if m.vec.length = N then some (proxyAssign d m v) else none

/-- The chained indexing expression `m[c1][c2]...[cN]` up to (not including)
the terminal read/write: the first `[]` goes through the matrix, the rest
through proxies. -/
def chainIndex (m : Mat) : List Nat → Mat
  | [] => m
  | i :: rest => rest.foldl proxyIndex (topIndex m i)

/-- A full index-read expression `m[c1]...[cN]` used as a value: the value
produced and the state afterwards. -/
def indexRead (d : Nat) (m : Mat) (c : List Nat) : Nat × Mat :=
  (proxyDeref d (chainIndex m c), chainIndex m c)

/-- A full index-write expression `m[c1]...[cN] = v`. -/
def indexWrite (d : Nat) (m : Mat) (c : List Nat) (v : Nat) : Mat :=
  proxyAssign d (chainIndex m c) v

/-- `matrix::size()`: `map_->size()`. -/
def Mat.size (m : Mat) : Nat := m.map.length

/-- One `matrix::iterator` dereference: `vector_to_tuple` glues the `N`
coordinates and the value into one tuple, here the list `coord ++ [value]`. -/
def derefTuple (p : List Nat × Nat) : List Nat := p.1 ++ [p.2]

/-- The full sequence an iteration from `begin()` to `end()` produces, in
map order. -/
def entries (m : Mat) : List (List Nat) := m.map.map derefTuple

/-- An iterator position: the remaining entries (the map iterator is a
position in the ordered map). `begin()`. -/
def mbegin (m : Mat) : List (List Nat × Nat) := m.map

/-- The `end()` iterator position. -/
def mend (_ : Mat) : List (List Nat × Nat) := []

/-- The keys of a map, in map order. -/
def mapKeys (l : List (List Nat × Nat)) : List (List Nat) := l.map Prod.fst

/-- The keys currently stored in the matrix, in map order. -/
def Mat.keys (m : Mat) : List (List Nat) := mapKeys m.map

/-- Well-formedness of the store, as `std::map` maintains it: entries
strictly ascending in key order. -/
def StoreWF (m : Mat) : Prop :=
  m.map.Pairwise (fun p q => lexLt p.1 q.1 = true)

/-- The demo program of `main.cpp`: `matrix<size_t, 0>`; for `i = 0..9`,
`matrix[i][i] = i; matrix[i][9 - i] = i;`. -/
def demoMat : Mat :=
  (List.range 10).foldl
    (fun m i => indexWrite 0 (indexWrite 0 m [i, i] i) [i, 9 - i] i) mkMatrix

/-- One step of client code against the matrix: a full index-write or a
full index-read expression. -/
inductive MatOp
  | write (c : List Nat) (v : Nat)
  | read (c : List Nat)
deriving DecidableEq

/-- The coordinate an operation addresses. -/
def MatOp.coord : MatOp → List Nat
  | .write c _ => c
  | .read c => c

/-- Execute one operation on the matrix state. -/
def applyOp (d : Nat) (m : Mat) : MatOp → Mat
  | .write c v => indexWrite d m c v
  | .read c => (indexRead d m c).2

/-- Execute a sequence of operations, first operation first. -/
def runOps (d : Nat) (m : Mat) : List MatOp → Mat
  | [] => m
  | op :: t => runOps d (applyOp d m op) t

/-- The value of the last write to coordinate `c` in an operation sequence,
if any write to `c` occurs in it. -/
def lastWrite : List MatOp → List Nat → Option Nat
  | [], _ => none
  | MatOp.write e v :: t, c =>
    match lastWrite t c with
    | some w => some w
    | none => if e = c then some v else none
  | MatOp.read _ :: t, c => lastWrite t c

/-- A sample well-formed one-entry store, used to instantiate the general
theorems at concrete inputs. -/
def sampleMat : Mat := ⟨[([1, 2], 3)], []⟩

/-- A sample well-formed two-entry store with 2-dimensional keys in
ascending order. -/
def sampleMat2 : Mat := ⟨[([0, 1], 5), ([2, 3], 7)], []⟩

/-- A sample operation sequence exercising insert, delete-by-default and
read. -/
def sampleOps : List MatOp :=
  [MatOp.write [0, 0] 5, MatOp.write [0, 1] 0, MatOp.read [0, 0], MatOp.write [1, 1] 7]

/-- A sample state mid-expression: one coordinate accumulated out of two. -/
def samplePartial : Mat := ⟨[], [3]⟩

/-! ## Order lemmas for `lexLt` -/

/-- `lexLt` is irreflexive, as a strict order must be. -/
theorem lexLt_irrefl (l : List Nat) : lexLt l l = false := by
  induction l with
  | nil => rfl
  | cons a t ih => simp [lexLt, ih]

/-- `lexLt` is transitive. -/
theorem lexLt_trans {a : List Nat} : ∀ {b c : List Nat},
    lexLt a b = true → lexLt b c = true → lexLt a c = true := by
  induction a with
  | nil =>
    intro b c h1 h2
    cases b with
    | nil => exact absurd h1 (by simp [lexLt])
    | cons y bs =>
      cases c with
      | nil => exact absurd h2 (by simp [lexLt])
      | cons z cs => simp [lexLt]
  | cons x as ih =>
    intro b c h1 h2
    cases b with
    | nil => exact absurd h1 (by simp [lexLt])
    | cons y bs =>
      cases c with
      | nil => exact absurd h2 (by simp [lexLt])
      | cons z cs =>
        simp only [lexLt] at h1 h2 ⊢
        rcases Nat.lt_trichotomy x y with hxy | rfl | hxy
        · rcases Nat.lt_trichotomy y z with hyz | rfl | hyz
          · simp [Nat.lt_trans hxy hyz]
          · simp [hxy]
          · rw [if_neg (by omega), if_pos hyz] at h2
            exact absurd h2 (by simp)
        · rw [if_neg (by omega), if_neg (by omega)] at h1
          rcases Nat.lt_trichotomy x z with hxz | rfl | hxz
          · simp [hxz]
          · rw [if_neg (by omega), if_neg (by omega)] at h2 ⊢
            exact ih h1 h2
          · rw [if_neg (by omega), if_pos hxz] at h2
            exact absurd h2 (by simp)
        · rw [if_neg (by omega), if_pos hxy] at h1
          exact absurd h1 (by simp)

/-- `lexLt` is total on distinct lists. -/
theorem lexLt_connex {a : List Nat} : ∀ {b : List Nat},
    lexLt a b = false → a ≠ b → lexLt b a = true := by
  induction a with
  | nil =>
    intro b h hne
    cases b with
    | nil => exact absurd rfl hne
    | cons y bs => simp [lexLt] at h
  | cons x as ih =>
    intro b h hne
    cases b with
    | nil => simp [lexLt]
    | cons y bs =>
      simp only [lexLt] at h ⊢
      rcases Nat.lt_trichotomy x y with hxy | rfl | hxy
      · simp [hxy] at h
      · rw [if_neg (by omega), if_neg (by omega)] at h ⊢
        exact ih h (fun hh => hne (by rw [hh]))
      · simp [hxy, Nat.lt_asymm hxy]

/-! ## Lemmas about the map operations -/

/-- Everything in `mapEmplace l k v` is the new entry or was already there. -/
theorem mem_mapEmplace {l : List (List Nat × Nat)} {k : List Nat} {v : Nat}
    {p : List Nat × Nat} : p ∈ mapEmplace l k v → p = (k, v) ∨ p ∈ l := by
  induction l with
  | nil =>
    intro h
    simp [mapEmplace] at h
    exact Or.inl h
  | cons q t ih =>
    intro h
    simp only [mapEmplace] at h
    by_cases h1 : lexLt k q.1 = true
    · rw [if_pos h1] at h
      rcases List.mem_cons.mp h with h | h
      · exact Or.inl h
      · exact Or.inr h
    · rw [if_neg h1] at h
      by_cases h2 : q.1 = k
      · rw [if_pos h2] at h
        exact Or.inr h
      · rw [if_neg h2] at h
        rcases List.mem_cons.mp h with h | h
        · exact Or.inr (h ▸ List.mem_cons_self q t)
        · rcases ih h with h | h
          · exact Or.inl h
          · exact Or.inr (List.mem_cons_of_mem q h)

/-- `mapEmplace` keeps every existing entry. -/
theorem mem_mapEmplace_of_mem {l : List (List Nat × Nat)} {k : List Nat} {v : Nat}
    {p : List Nat × Nat} (h : p ∈ l) : p ∈ mapEmplace l k v := by
  induction l with
  | nil => cases h
  | cons q t ih =>
    simp only [mapEmplace]
    by_cases h1 : lexLt k q.1 = true
    · rw [if_pos h1]
      exact List.mem_cons_of_mem _ h
    · rw [if_neg h1]
      by_cases h2 : q.1 = k
      · rw [if_pos h2]
        exact h
      · rw [if_neg h2]
        rcases List.mem_cons.mp h with h | h
        · exact h ▸ List.mem_cons_self q _
        · exact List.mem_cons_of_mem q (ih h)

/-- After `mapEmplace l k v` the key `k` is present. -/
theorem self_mem_mapKeys_mapEmplace (l : List (List Nat × Nat)) (k : List Nat)
    (v : Nat) : k ∈ mapKeys (mapEmplace l k v) := by
  induction l with
  | nil => simp [mapEmplace, mapKeys]
  | cons q t ih =>
    simp only [mapEmplace]
    by_cases h1 : lexLt k q.1 = true
    · rw [if_pos h1]
      simp [mapKeys]
    · rw [if_neg h1]
      by_cases h2 : q.1 = k
      · rw [if_pos h2]
        simp [mapKeys, h2]
      · rw [if_neg h2]
        simp only [mapKeys, List.map_cons, List.mem_cons]
        exact Or.inr ih

/-- The keys after `mapEmplace`. -/
theorem mapKeys_mapEmplace (l : List (List Nat × Nat)) (k x : List Nat) (v : Nat) :
    x ∈ mapKeys (mapEmplace l k v) ↔ x = k ∨ x ∈ mapKeys l := by
  constructor
  · intro h
    rcases List.mem_map.mp h with ⟨p, hp, hpx⟩
    rcases mem_mapEmplace hp with rfl | hp
    · exact Or.inl hpx.symm
    · exact Or.inr (List.mem_map.mpr ⟨p, hp, hpx⟩)
  · intro h
    rcases h with rfl | h
    · exact self_mem_mapKeys_mapEmplace l x v
    · rcases List.mem_map.mp h with ⟨p, hp, hpx⟩
      exact List.mem_map.mpr ⟨p, mem_mapEmplace_of_mem hp, hpx⟩

/-- Everything surviving `mapErase l k` was in `l` and is not keyed `k`. -/
theorem mem_mapErase {l : List (List Nat × Nat)} {k : List Nat}
    {p : List Nat × Nat} : p ∈ mapErase l k ↔ p ∈ l ∧ p.1 ≠ k := by
  induction l with
  | nil => simp [mapErase]
  | cons q t ih =>
    simp only [mapErase]
    by_cases h1 : q.1 = k
    · rw [if_pos h1, ih]
      constructor
      · intro ⟨hp, hpk⟩
        exact ⟨List.mem_cons_of_mem q hp, hpk⟩
      · intro ⟨hp, hpk⟩
        rcases List.mem_cons.mp hp with rfl | hp
        · exact absurd h1 hpk
        · exact ⟨hp, hpk⟩
    · rw [if_neg h1]
      constructor
      · intro hp
        rcases List.mem_cons.mp hp with rfl | hp
        · exact ⟨List.mem_cons_self p t, h1⟩
        · rcases ih.mp hp with ⟨hp2, hpk⟩
          exact ⟨List.mem_cons_of_mem q hp2, hpk⟩
      · intro ⟨hp, hpk⟩
        rcases List.mem_cons.mp hp with rfl | hp
        · exact List.mem_cons_self p _
        · exact List.mem_cons_of_mem q (ih.mpr ⟨hp, hpk⟩)

/-- The keys after `mapErase`. -/
theorem mapKeys_mapErase (l : List (List Nat × Nat)) (k x : List Nat) :
    x ∈ mapKeys (mapErase l k) ↔ x ∈ mapKeys l ∧ x ≠ k := by
  constructor
  · intro h
    rcases List.mem_map.mp h with ⟨p, hp, hpx⟩
    rcases mem_mapErase.mp hp with ⟨hpl, hpk⟩
    exact ⟨List.mem_map.mpr ⟨p, hpl, hpx⟩, hpx ▸ hpk⟩
  · intro ⟨h, hx⟩
    rcases List.mem_map.mp h with ⟨p, hp, hpx⟩
    exact List.mem_map.mpr ⟨p, mem_mapErase.mpr ⟨hp, hpx ▸ hx⟩, hpx⟩

/-- Erasing a key absent from `l` changes nothing. -/
theorem mapErase_eq_self {l : List (List Nat × Nat)} {k : List Nat}
    (h : ∀ p ∈ l, p.1 ≠ k) : mapErase l k = l := by
  induction l with
  | nil => rfl
  | cons q t ih =>
    simp only [mapErase]
    rw [if_neg (h q (List.mem_cons_self q t))]
    rw [ih (fun p hp => h p (List.mem_cons_of_mem q hp))]

/-- `mapErase` is idempotent. -/
theorem mapErase_idem (l : List (List Nat × Nat)) (k : List Nat) :
    mapErase (mapErase l k) k = mapErase l k :=
  mapErase_eq_self (fun _ hp => (mem_mapErase.mp hp).2)

/-- `mapFind` of an absent key is `none`. -/
theorem mapFind_eq_none {l : List (List Nat × Nat)} {k : List Nat}
    (h : ∀ p ∈ l, p.1 ≠ k) : mapFind l k = none := by
  induction l with
  | nil => rfl
  | cons q t ih =>
    simp only [mapFind]
    rw [if_neg (h q (List.mem_cons_self q t))]
    exact ih (fun p hp => h p (List.mem_cons_of_mem q hp))

/-- After erasing `k`, `k` is not found. -/
theorem mapFind_mapErase_self (l : List (List Nat × Nat)) (k : List Nat) :
    mapFind (mapErase l k) k = none :=
  mapFind_eq_none (fun _ hp => (mem_mapErase.mp hp).2)

/-- Erasing `k` does not change lookups of other keys. -/
theorem mapFind_mapErase_other (l : List (List Nat × Nat)) {k x : List Nat}
    (h : x ≠ k) : mapFind (mapErase l k) x = mapFind l x := by
  induction l with
  | nil => rfl
  | cons q t ih =>
    simp only [mapErase]
    by_cases h1 : q.1 = k
    · rw [if_pos h1, ih]
      simp only [mapFind]
      rw [if_neg (fun hq : q.1 = x => h (hq ▸ h1))]
    · rw [if_neg h1]
      simp only [mapFind]
      by_cases h2 : q.1 = x
      · rw [if_pos h2, if_pos h2]
      · rw [if_neg h2, if_neg h2]
        exact ih

/-- Emplacing key `k` does not change lookups of other keys. -/
theorem mapFind_mapEmplace_other (l : List (List Nat × Nat)) {k x : List Nat}
    (v : Nat) (h : x ≠ k) : mapFind (mapEmplace l k v) x = mapFind l x := by
  induction l with
  | nil =>
    simp only [mapEmplace, mapFind]
    rw [if_neg (fun hq : k = x => h hq.symm)]
  | cons q t ih =>
    simp only [mapEmplace]
    by_cases h1 : lexLt k q.1 = true
    · rw [if_pos h1]
      simp only [mapFind]
      rw [if_neg (fun hq : k = x => h hq.symm)]
    · rw [if_neg h1]
      by_cases h2 : q.1 = k
      · rw [if_pos h2]
      · rw [if_neg h2]
        simp only [mapFind]
        by_cases h3 : q.1 = x
        · rw [if_pos h3, if_pos h3]
        · rw [if_neg h3, if_neg h3]
          exact ih

/-- In a sorted store, every key strictly above `k` in every later entry:
if the head is above `k`, `k` is nowhere in the store. -/
theorem mapFind_eq_none_of_lt {t : List (List Nat × Nat)} {k q1 : List Nat}
    (h1 : lexLt k q1 = true)
    (hall : ∀ r ∈ t, lexLt q1 r.1 = true) : mapFind t k = none := by
  refine mapFind_eq_none (fun p hp hpk => ?_)
  have h2 : lexLt k p.1 = true := lexLt_trans h1 (hall p hp)
  rw [hpk] at h2
  rw [lexLt_irrefl k] at h2
  cases h2

/-- In a sorted store, emplacing `k` makes lookup of `k` return the already
stored value if there was one, else the new value: the `std::map::emplace`
no-overwrite behaviour. -/
theorem mapFind_mapEmplace_self {l : List (List Nat × Nat)} (k : List Nat)
    (v : Nat) (hwf : l.Pairwise (fun p q => lexLt p.1 q.1 = true)) :
    mapFind (mapEmplace l k v) k = some ((mapFind l k).getD v) := by
  induction l with
  | nil => simp [mapEmplace, mapFind]
  | cons q t ih =>
    rcases List.pairwise_cons.mp hwf with ⟨hall, ht⟩
    simp only [mapEmplace]
    by_cases h1 : lexLt k q.1 = true
    · rw [if_pos h1]
      have hq : ¬ q.1 = k := fun hq => by
        rw [hq] at h1
        rw [lexLt_irrefl k] at h1
        cases h1
      have hnone : mapFind t k = none := mapFind_eq_none_of_lt h1 hall
      simp [mapFind, hq, hnone]
    · rw [if_neg h1]
      by_cases h2 : q.1 = k
      · rw [if_pos h2]
        simp [mapFind, h2]
      · rw [if_neg h2]
        simp only [mapFind]
        rw [if_neg h2, if_neg h2]
        exact ih ht

/-- `mapEmplace` produces a sorted store from a sorted store. -/
theorem pairwise_mapEmplace {l : List (List Nat × Nat)} (k : List Nat) (v : Nat)
    (hwf : l.Pairwise (fun p q => lexLt p.1 q.1 = true)) :
    (mapEmplace l k v).Pairwise (fun p q => lexLt p.1 q.1 = true) := by
  induction l with
  | nil => simp [mapEmplace]
  | cons q t ih =>
    rcases List.pairwise_cons.mp hwf with ⟨hall, ht⟩
    simp only [mapEmplace]
    by_cases h1 : lexLt k q.1 = true
    · rw [if_pos h1]
      refine List.pairwise_cons.mpr ⟨?_, hwf⟩
      intro r hr
      rcases List.mem_cons.mp hr with rfl | hr
      · exact h1
      · exact lexLt_trans h1 (hall r hr)
    · rw [if_neg h1]
      by_cases h2 : q.1 = k
      · rw [if_pos h2]
        exact hwf
      · rw [if_neg h2]
        refine List.pairwise_cons.mpr ⟨?_, ih ht⟩
        intro r hr
        rcases mem_mapEmplace hr with rfl | hr
        · exact lexLt_connex (Bool.eq_false_iff.mpr h1 ▸ rfl)
            (fun hh => h2 hh.symm)
        · exact hall r hr

/-- `mapErase` keeps the store sorted. -/
theorem pairwise_mapErase {l : List (List Nat × Nat)} (k : List Nat)
    (hwf : l.Pairwise (fun p q => lexLt p.1 q.1 = true)) :
    (mapErase l k).Pairwise (fun p q => lexLt p.1 q.1 = true) := by
  induction l with
  | nil => exact hwf
  | cons q t ih =>
    rcases List.pairwise_cons.mp hwf with ⟨hall, ht⟩
    simp only [mapErase]
    by_cases h1 : q.1 = k
    · rw [if_pos h1]
      exact ih ht
    · rw [if_neg h1]
      refine List.pairwise_cons.mpr ⟨?_, ih ht⟩
      intro r hr
      exact hall r (mem_mapErase.mp hr).1

/-- `mapEmplace` grows the store by at most one entry (and never shrinks it). -/
theorem length_mapEmplace (l : List (List Nat × Nat)) (k : List Nat) (v : Nat) :
    (mapEmplace l k v).length = l.length ∨
    (mapEmplace l k v).length = l.length + 1 := by
  induction l with
  | nil => simp [mapEmplace]
  | cons q t ih =>
    simp only [mapEmplace]
    by_cases h1 : lexLt k q.1 = true
    · rw [if_pos h1]
      simp
    · rw [if_neg h1]
      by_cases h2 : q.1 = k
      · rw [if_pos h2]
        simp
      · rw [if_neg h2]
        rcases ih with h | h <;> simp [h]

/-- `mapErase` never grows the store. -/
theorem length_mapErase_le (l : List (List Nat × Nat)) (k : List Nat) :
    (mapErase l k).length ≤ l.length := by
  induction l with
  | nil => exact Nat.le_refl 0
  | cons q t ih =>
    simp only [mapErase]
    by_cases h1 : q.1 = k
    · rw [if_pos h1]
      exact Nat.le_succ_of_le ih
    · rw [if_neg h1]
      simpa using ih

/-- On a sorted store, `mapErase` removes at most one entry. -/
theorem length_le_mapErase {l : List (List Nat × Nat)} (k : List Nat)
    (hwf : l.Pairwise (fun p q => lexLt p.1 q.1 = true)) :
    l.length ≤ (mapErase l k).length + 1 := by
  induction l with
  | nil => exact Nat.zero_le 1
  | cons q t ih =>
    rcases List.pairwise_cons.mp hwf with ⟨hall, ht⟩
    simp only [mapErase]
    by_cases h1 : q.1 = k
    · rw [if_pos h1]
      have ht' : mapErase t k = t := by
        refine mapErase_eq_self (fun p hp hpk => ?_)
        have h2 : lexLt q.1 p.1 = true := hall p hp
        rw [hpk, ← h1, lexLt_irrefl q.1] at h2
        cases h2
      rw [ht']
      simp
    · rw [if_neg h1]
      simpa using ih ht

/-! ## Lemmas about the chained indexing protocol -/

/-- Folding proxy indexing steps never touches the map. -/
theorem foldl_proxyIndex_map (rest : List Nat) (s : Mat) :
    (rest.foldl proxyIndex s).map = s.map := by
  induction rest generalizing s with
  | nil => rfl
  | cons i t ih => simp [List.foldl, ih, proxyIndex]

/-- Folding proxy indexing steps appends the supplied coordinates to the
accumulator in order. -/
theorem foldl_proxyIndex_vec (rest : List Nat) (s : Mat) :
    (rest.foldl proxyIndex s).vec = s.vec ++ rest := by
  induction rest generalizing s with
  | nil => simp
  | cons i t ih => simp [List.foldl, ih, proxyIndex]

/-- Chained indexing never touches the map. -/
theorem chainIndex_map (m : Mat) (c : List Nat) : (chainIndex m c).map = m.map := by
  cases c with
  | nil => rfl
  | cons i rest => simp [chainIndex, foldl_proxyIndex_map, topIndex]

/-- Chained indexing of a nonempty coordinate leaves exactly that coordinate
in the accumulator. -/
theorem chainIndex_vec (m : Mat) {c : List Nat} (h : c ≠ []) :
    (chainIndex m c).vec = c := by
  cases c with
  | nil => exact absurd rfl h
  | cons i rest => simp [chainIndex, foldl_proxyIndex_vec, topIndex]

/-- The map a full index-write leaves behind: erase on the default value,
`std::map::emplace` otherwise. -/
theorem indexWrite_map (d : Nat) (m : Mat) {c : List Nat} (v : Nat) (h : c ≠ []) :
    (indexWrite d m c v).map =
      if v = d then mapErase m.map c else mapEmplace m.map c v := by
  unfold indexWrite proxyAssign
  split <;> simp [chainIndex_map, chainIndex_vec m h, *]

/-- The value a full index-read produces: lookup with default fallback. -/
theorem indexRead_val (d : Nat) (m : Mat) {c : List Nat} (h : c ≠ []) :
    (indexRead d m c).1 = (mapFind m.map c).getD d := by
  simp [indexRead, proxyDeref, chainIndex_map, chainIndex_vec m h]

/-- A full index-read never changes the map. -/
theorem indexRead_map (d : Nat) (m : Mat) (c : List Nat) :
    (indexRead d m c).2.map = m.map := by
  simp [indexRead, chainIndex_map]

/-! ## Preservation of the store invariants -/

/-- The fresh store is (vacuously) sorted. -/
theorem storeWF_mkMatrix : StoreWF mkMatrix := List.Pairwise.nil

/-- A full index-write keeps the store sorted. -/
theorem storeWF_indexWrite {m : Mat} (d v : Nat) {c : List Nat} (h : c ≠ [])
    (hwf : StoreWF m) : StoreWF (indexWrite d m c v) := by
  unfold StoreWF
  rw [indexWrite_map d m v h]
  split
  · exact pairwise_mapErase c hwf
  · exact pairwise_mapEmplace c v hwf

/-- A full index-write never stores the default value. -/
theorem noDefault_indexWrite {m : Mat} (d v : Nat) {c : List Nat} (h : c ≠ [])
    (hnd : ∀ p ∈ m.map, p.2 ≠ d) :
    ∀ p ∈ (indexWrite d m c v).map, p.2 ≠ d := by
  intro p hp
  rw [indexWrite_map d m v h] at hp
  by_cases hv : v = d
  · rw [if_pos hv] at hp
    exact hnd p (mem_mapErase.mp hp).1
  · rw [if_neg hv] at hp
    rcases mem_mapEmplace hp with rfl | hp
    · exact hv
    · exact hnd p hp

/-- A sorted store has no duplicate keys. -/
theorem storeWF_keys_nodup {m : Mat} (hwf : StoreWF m) : m.keys.Nodup := by
  unfold StoreWF at hwf
  unfold Mat.keys mapKeys
  refine List.Pairwise.map Prod.fst (fun a b hab => ?_) hwf
  intro he
  rw [he, lexLt_irrefl] at hab
  cases hab

/-- Which keys a full index-write leaves present. -/
theorem keys_indexWrite (d v : Nat) (m : Mat) {c : List Nat} (h : c ≠ [])
    (x : List Nat) :
    (x ∈ (indexWrite d m c v).keys ↔ if c = x then v ≠ d else x ∈ m.keys) := by
  unfold Mat.keys
  rw [indexWrite_map d m v h]
  by_cases hv : v = d
  · rw [if_pos hv, mapKeys_mapErase]
    by_cases hcx : c = x
    · rw [if_pos hcx]
      subst hcx
      simp [hv]
    · rw [if_neg hcx]
      exact ⟨fun hx => hx.1, fun hx => ⟨hx, fun hh => hcx hh.symm⟩⟩
  · rw [if_neg hv, mapKeys_mapEmplace]
    by_cases hcx : c = x
    · rw [if_pos hcx]
      simp [hcx.symm, hv]
    · rw [if_neg hcx]
      exact ⟨fun hx => hx.elim (fun hh => absurd hh.symm hcx) id, Or.inr⟩

/-- Running any sequence of full index-writes and index-reads preserves
no-stored-default, sortedness, and the characterisation of the present keys
as exactly the coordinates whose last write was non-default. -/
theorem runOps_invariant (d : Nat) (ops : List MatOp) :
    ∀ m : Mat, (∀ op ∈ ops, MatOp.coord op ≠ []) →
    (∀ p ∈ m.map, p.2 ≠ d) → StoreWF m →
    (∀ p ∈ (runOps d m ops).map, p.2 ≠ d)
    ∧ StoreWF (runOps d m ops)
    ∧ (∀ c, c ∈ (runOps d m ops).keys ↔
        (match lastWrite ops c with
         | some v => v ≠ d
         | none => c ∈ m.keys)) := by
  induction ops with
  | nil =>
    intro m _ hnd hwf
    exact ⟨hnd, hwf, fun c => by simp [runOps, lastWrite]⟩
  | cons op t ih =>
    intro m hops hnd hwf
    have hop : MatOp.coord op ≠ [] := hops op (List.mem_cons_self op t)
    have hops' : ∀ o ∈ t, MatOp.coord o ≠ [] :=
      fun o ho => hops o (List.mem_cons_of_mem op ho)
    cases op with
    | read c =>
      have hmap : (applyOp d m (MatOp.read c)).map = m.map := by
        simp [applyOp, indexRead, chainIndex_map]
      have hnd' : ∀ p ∈ (applyOp d m (MatOp.read c)).map, p.2 ≠ d := by
        rw [hmap]; exact hnd
      have hwf' : StoreWF (applyOp d m (MatOp.read c)) := by
        unfold StoreWF; rw [hmap]; exact hwf
      obtain ⟨h1, h2, h3⟩ := ih (applyOp d m (MatOp.read c)) hops' hnd' hwf'
      refine ⟨h1, h2, fun x => ?_⟩
      have hrun : runOps d m (MatOp.read c :: t)
          = runOps d (applyOp d m (MatOp.read c)) t := rfl
      have hk : (applyOp d m (MatOp.read c)).keys = m.keys := by
        unfold Mat.keys; rw [hmap]
      rw [hrun, h3 x, lastWrite, hk]
    | write c v =>
      have hc : c ≠ [] := hop
      have hnd' := noDefault_indexWrite d v hc hnd
      have hwf' := storeWF_indexWrite d v hc hwf
      obtain ⟨h1, h2, h3⟩ := ih (indexWrite d m c v) hops' hnd' hwf'
      refine ⟨h1, h2, fun x => ?_⟩
      have hrun : runOps d m (MatOp.write c v :: t)
          = runOps d (indexWrite d m c v) t := rfl
      rw [hrun, h3 x]
      cases hlw : lastWrite t x with
      | some w => simp [lastWrite, hlw]
      | none =>
        simp only [lastWrite, hlw]
        rw [keys_indexWrite d v m hc x]
        by_cases hcx : c = x
        · simp [hcx]
        · simp [hcx]

/-! ## The claims -/

/-- C1: the claim asserts that an index-write of a non-default value
overwrites an existing entry, so that a subsequent read returns the most
recent write.  The code refutes it: `Proxy::operator=` calls
`std::map::emplace`, which leaves an existing entry untouched, so after
`m[0][0] = 1; m[0][0] = 2;` the read of `m[0][0]` still returns `1`, not
`2` — contradicting both the spec and the operator's own stated behaviour
of placing the value into the matrix. -/
theorem emplace_write_not_overwritten :
    (indexRead 0 (indexWrite 0 (indexWrite 0 mkMatrix [0, 0] 1) [0, 0] 2) [0, 0]).1 = 1 := by
  decide

/-- C2 (counterexample): on the reference program's 20 writes, the claimed
observations `get(5,4) == 0` and `size() == 20` are both false. -/
theorem demo_scenario_claim_false :
    ¬ ((indexRead 0 demoMat [1, 1]).1 = 1 ∧ (indexRead 0 demoMat [1, 8]).1 = 1
       ∧ (indexRead 0 demoMat [5, 5]).1 = 5 ∧ (indexRead 0 demoMat [5, 4]).1 = 0
       ∧ demoMat.size = 20) := by
  decide

/-- C2 (amended): after the reference program's writes `set((i,i), i)` and
`set((i,9-i), i)` for `i = 0..9`, `get(1,1) == 1`, `get(1,8) == 1`,
`get(5,5) == 5`, `get(5,4) == 5` (coordinate `(5,4)` is written by the
`i = 5` anti-diagonal write), and `size() == 18` (the two `i = 0` writes
carry the default value `0` and therefore store nothing). -/
theorem demo_scenario_actual :
    (indexRead 0 demoMat [1, 1]).1 = 1 ∧ (indexRead 0 demoMat [1, 8]).1 = 1
    ∧ (indexRead 0 demoMat [5, 5]).1 = 5 ∧ (indexRead 0 demoMat [5, 4]).1 = 5
    ∧ demoMat.size = 18 := by
  decide

/-- C3: writing the default value at a coordinate `c` erases `c`'s entry:
afterwards the read at `c` returns the default and no stored entry carries
coordinate `c`; repeating the write changes the store no further; and when
`c` was not stored at all the store, its size and its entry sequence are
unchanged. -/
theorem write_default_erases (d : Nat) (m : Mat) (c : List Nat) (h : c ≠ []) :
    (indexRead d (indexWrite d m c d) c).1 = d
    ∧ (∀ p ∈ (indexWrite d m c d).map, p.1 ≠ c)
    ∧ (indexWrite d (indexWrite d m c d) c d).map = (indexWrite d m c d).map
    ∧ (c ∉ m.keys →
        (indexWrite d m c d).map = m.map
        ∧ (indexWrite d m c d).size = m.size
        ∧ entries (indexWrite d m c d) = entries m) := by
  have hmap : (indexWrite d m c d).map = mapErase m.map c := by
    rw [indexWrite_map d m d h, if_pos rfl]
  refine ⟨?_, ?_, ?_, ?_⟩
  · rw [indexRead_val d _ h, hmap, mapFind_mapErase_self]
    rfl
  · intro p hp
    rw [hmap] at hp
    exact (mem_mapErase.mp hp).2
  · rw [indexWrite_map d _ d h, if_pos rfl, hmap, mapErase_idem]
  · intro habs
    have hall : ∀ p ∈ m.map, p.1 ≠ c := by
      intro p hp hpc
      exact habs (by unfold Mat.keys mapKeys; exact List.mem_map.mpr ⟨p, hp, hpc⟩)
    have heq : (indexWrite d m c d).map = m.map := by
      rw [hmap]
      exact mapErase_eq_self hall
    exact ⟨heq, by unfold Mat.size; rw [heq], by unfold entries; rw [heq]⟩

/-- C3 witness: the general theorem at `d = 0`, a one-entry store and its
own stored coordinate. -/
theorem write_default_erases_witness :
    ([1, 2] : List Nat) ≠ [] ∧
    ((indexRead 0 (indexWrite 0 sampleMat [1, 2] 0) [1, 2]).1 = 0
     ∧ (∀ p ∈ (indexWrite 0 sampleMat [1, 2] 0).map, p.1 ≠ [1, 2])
     ∧ (indexWrite 0 (indexWrite 0 sampleMat [1, 2] 0) [1, 2] 0).map
         = (indexWrite 0 sampleMat [1, 2] 0).map
     ∧ ([1, 2] ∉ sampleMat.keys →
         (indexWrite 0 sampleMat [1, 2] 0).map = sampleMat.map
         ∧ (indexWrite 0 sampleMat [1, 2] 0).size = sampleMat.size
         ∧ entries (indexWrite 0 sampleMat [1, 2] 0) = entries sampleMat)) :=
  ⟨by decide, write_default_erases 0 sampleMat [1, 2] (by decide)⟩

/-- C4: reading a coordinate that is not stored returns the configured
default and leaves the map untouched (no entry is materialised). -/
theorem read_unwritten_default (d : Nat) (m : Mat) (c : List Nat) (h : c ≠ [])
    (habs : c ∉ m.keys) :
    (indexRead d m c).1 = d ∧ (indexRead d m c).2.map = m.map := by
  constructor
  · rw [indexRead_val d m h]
    have hall : ∀ p ∈ m.map, p.1 ≠ c := fun p hp hpc =>
      habs (by unfold Mat.keys mapKeys; exact List.mem_map.mpr ⟨p, hp, hpc⟩)
    rw [mapFind_eq_none hall]
    rfl
  · exact indexRead_map d m c

/-- C4 witness: the general theorem at a coordinate absent from a concrete
store. -/
theorem read_unwritten_default_witness :
    (([0, 5] : List Nat) ≠ [] ∧ [0, 5] ∉ sampleMat.keys) ∧
    ((indexRead 0 sampleMat [0, 5]).1 = 0
     ∧ (indexRead 0 sampleMat [0, 5]).2.map = sampleMat.map) :=
  ⟨⟨by decide, by decide⟩, read_unwritten_default 0 sampleMat [0, 5] (by decide) (by decide)⟩

/-- C5: after any sequence of full index-writes and index-reads starting
from a fresh matrix, no stored entry carries the default value, the stored
keys are duplicate-free, a coordinate is stored exactly when its last
written value differs from the default, and `size()` is the number of those
stored keys. -/
theorem store_invariant_ops (d : Nat) (ops : List MatOp)
    (h : ∀ op ∈ ops, MatOp.coord op ≠ []) :
    (∀ p ∈ (runOps d mkMatrix ops).map, p.2 ≠ d)
    ∧ (runOps d mkMatrix ops).keys.Nodup
    ∧ (∀ c, c ∈ (runOps d mkMatrix ops).keys ↔
        ∃ v, lastWrite ops c = some v ∧ v ≠ d)
    ∧ (runOps d mkMatrix ops).size = (runOps d mkMatrix ops).keys.length := by
  obtain ⟨h1, h2, h3⟩ :=
    runOps_invariant d ops mkMatrix h (by intro p hp; cases hp) storeWF_mkMatrix
  refine ⟨h1, storeWF_keys_nodup h2, fun c => ?_, ?_⟩
  · rw [h3 c]
    cases hlw : lastWrite ops c with
    | some w => simp
    | none =>
      constructor
      · intro hc
        exact absurd hc (by simp [mkMatrix, Mat.keys, mapKeys])
      · intro ⟨v, hv, _⟩
        cases hv
  · unfold Mat.size Mat.keys mapKeys
    rw [List.length_map]

/-- C5 witness: the sequence inserts `(0,0) := 5`, deletes `(0,1)` by
writing the default, reads, then inserts `(1,1) := 7`. -/
theorem store_invariant_ops_witness :
    (∀ op ∈ sampleOps, MatOp.coord op ≠ []) ∧
    ((∀ p ∈ (runOps 0 mkMatrix sampleOps).map, p.2 ≠ 0)
     ∧ (runOps 0 mkMatrix sampleOps).keys.Nodup
     ∧ (∀ c, c ∈ (runOps 0 mkMatrix sampleOps).keys ↔
         ∃ v, lastWrite sampleOps c = some v ∧ v ≠ 0)
     ∧ (runOps 0 mkMatrix sampleOps).size
         = (runOps 0 mkMatrix sampleOps).keys.length) :=
  ⟨by decide, store_invariant_ops 0 sampleOps (by decide)⟩

/-- C6: iterating a well-formed store whose keys all have length `N` yields
exactly one tuple per stored cell — the cell's `N` coordinates followed by
its value — and the key sequence is strictly ascending in lexicographic
order, hence duplicate-free. -/
theorem entries_sorted_tuples (m : Mat) (N : Nat) (hwf : StoreWF m)
    (hlen : ∀ p ∈ m.map, p.1.length = N) :
    (entries m).length = m.size
    ∧ (∀ p ∈ m.map, derefTuple p ∈ entries m)
    ∧ (∀ t ∈ entries m, ∃ p, p ∈ m.map ∧ t = p.1 ++ [p.2]
        ∧ t.take N = p.1 ∧ t.drop N = [p.2])
    ∧ m.keys.Pairwise (fun a b => lexLt a b = true)
    ∧ m.keys.Nodup := by
  refine ⟨?_, ?_, ?_, ?_, storeWF_keys_nodup hwf⟩
  · unfold entries Mat.size
    rw [List.length_map]
  · intro p hp
    exact List.mem_map.mpr ⟨p, hp, rfl⟩
  · intro t ht
    rcases List.mem_map.mp ht with ⟨p, hp, hpt⟩
    have hteq : t = p.1 ++ [p.2] := by rw [← hpt]; rfl
    refine ⟨p, hp, hteq, ?_, ?_⟩
    · rw [hteq, ← hlen p hp]
      exact List.take_left p.1 [p.2]
    · rw [hteq, ← hlen p hp]
      exact List.drop_left p.1 [p.2]
  · unfold StoreWF at hwf
    unfold Mat.keys mapKeys
    exact List.Pairwise.map Prod.fst (fun a b hab => hab) hwf

/-- C6 witness: the theorem at a concrete two-entry sorted store with
2-dimensional keys. -/
theorem entries_sorted_tuples_witness :
    (StoreWF sampleMat2 ∧ (∀ p ∈ sampleMat2.map, p.1.length = 2)) ∧
    ((entries sampleMat2).length = sampleMat2.size
     ∧ (∀ p ∈ sampleMat2.map, derefTuple p ∈ entries sampleMat2)
     ∧ (∀ t ∈ entries sampleMat2, ∃ p, p ∈ sampleMat2.map ∧ t = p.1 ++ [p.2]
         ∧ t.take 2 = p.1 ∧ t.drop 2 = [p.2])
     ∧ sampleMat2.keys.Pairwise (fun a b => lexLt a b = true)
     ∧ sampleMat2.keys.Nodup) :=
  ⟨⟨by unfold StoreWF sampleMat2; decide, by decide⟩,
   entries_sorted_tuples sampleMat2 2 (by unfold StoreWF sampleMat2; decide) (by decide)⟩

/-- C7: chained indexing is the specified state machine over the
accumulator: `m[a]` clears and seeds the accumulator (`Building(1)`), each
proxy `[]` appends one coordinate, and after exactly `N` coordinates
`a :: rest` the accessor is `Resolved`: its read and its write go through
precisely the coordinate `a :: rest` against the untouched map. -/
theorem chained_index_state_machine (d v a N : Nat) (m : Mat) (rest : List Nat)
    (hN : rest.length + 1 = N) :
    (topIndex m a).vec = [a]
    ∧ (topIndex m a).map = m.map
    ∧ (∀ s i, (proxyIndex s i).vec = s.vec ++ [i] ∧ (proxyIndex s i).map = s.map)
    ∧ (chainIndex m (a :: rest)).vec = a :: rest
    ∧ (chainIndex m (a :: rest)).map = m.map
    ∧ proxyDerefChecked d N (chainIndex m (a :: rest))
        = some ((mapFind m.map (a :: rest)).getD d)
    ∧ proxyAssignChecked d N (chainIndex m (a :: rest)) v
        = some (proxyAssign d ⟨m.map, a :: rest⟩ v) := by
  have hvec : (chainIndex m (a :: rest)).vec = a :: rest :=
    chainIndex_vec m (by simp)
  have hmap : (chainIndex m (a :: rest)).map = m.map := chainIndex_map m _
  have hchain : chainIndex m (a :: rest) = Mat.mk m.map (a :: rest) := by
    rcases hx : chainIndex m (a :: rest) with ⟨mp, vc⟩
    rw [hx] at hvec hmap
    simp only [Mat.mk.injEq]
    exact ⟨hmap, hvec⟩
  refine ⟨rfl, rfl, fun s i => ⟨rfl, rfl⟩, hvec, hmap, ?_, ?_⟩
  · rw [hchain]
    unfold proxyDerefChecked
    rw [if_pos (by simpa using hN)]
    rfl
  · rw [hchain]
    unfold proxyAssignChecked
    rw [if_pos (by simpa using hN)]

/-- C7 witness: a 2-dimensional chain `m[4][5]` on a concrete store. -/
theorem chained_index_state_machine_witness :
    ([5] : List Nat).length + 1 = 2 ∧
    ((topIndex sampleMat 4).vec = [4]
     ∧ (topIndex sampleMat 4).map = sampleMat.map
     ∧ (∀ s i, (proxyIndex s i).vec = s.vec ++ [i] ∧ (proxyIndex s i).map = s.map)
     ∧ (chainIndex sampleMat (4 :: [5])).vec = 4 :: [5]
     ∧ (chainIndex sampleMat (4 :: [5])).map = sampleMat.map
     ∧ proxyDerefChecked 0 2 (chainIndex sampleMat (4 :: [5]))
         = some ((mapFind sampleMat.map (4 :: [5])).getD 0)
     ∧ proxyAssignChecked 0 2 (chainIndex sampleMat (4 :: [5])) 7
         = some (proxyAssign 0 ⟨sampleMat.map, 4 :: [5]⟩ 7)) :=
  ⟨by decide, chained_index_state_machine 0 7 4 2 sampleMat [5] (by decide)⟩

/-- C8: with fewer than `N` accumulated coordinates the terminal read and
write do not exist (the `static_assert(Index == N)` rejects them), so no
execution performs a lookup or a store with a partial coordinate. -/
theorem partial_access_statically_rejected (d v N k : Nat) (m : Mat)
    (hk : m.vec.length = k) (hkN : k < N) :
    proxyDerefChecked d N m = none ∧ proxyAssignChecked d N m v = none := by
  have hne : ¬ m.vec.length = N := by omega
  constructor
  · unfold proxyDerefChecked
    rw [if_neg hne]
  · unfold proxyAssignChecked
    rw [if_neg hne]

/-- C8 witness: one accumulated coordinate of two required. -/
theorem partial_access_statically_rejected_witness :
    (samplePartial.vec.length = 1 ∧ 1 < 2) ∧
    (proxyDerefChecked 0 2 samplePartial = none
     ∧ proxyAssignChecked 0 2 samplePartial 7 = none) :=
  ⟨⟨by decide, by decide⟩,
   partial_access_statically_rejected 0 7 2 1 samplePartial (by decide) (by decide)⟩

/-- C9: an index-write at coordinate `c` does not change the value read at
any other coordinate `c'`, whether or not the written value is the default,
and changes `size()` by at most one. -/
theorem write_frame_effect (d v : Nat) (m : Mat) (c c' : List Nat)
    (hwf : StoreWF m) (hc : c ≠ []) (hc' : c' ≠ []) (hne : c' ≠ c) :
    (indexRead d (indexWrite d m c v) c').1 = (indexRead d m c').1
    ∧ (indexWrite d m c v).size ≤ m.size + 1
    ∧ m.size ≤ (indexWrite d m c v).size + 1 := by
  have hmap := indexWrite_map d m v hc
  refine ⟨?_, ?_, ?_⟩
  · rw [indexRead_val d _ hc', indexRead_val d m hc', hmap]
    by_cases hv : v = d
    · rw [if_pos hv, mapFind_mapErase_other m.map hne]
    · rw [if_neg hv, mapFind_mapEmplace_other m.map v hne]
  · unfold Mat.size
    rw [hmap]
    by_cases hv : v = d
    · rw [if_pos hv]
      exact Nat.le_succ_of_le (length_mapErase_le m.map c)
    · rw [if_neg hv]
      rcases length_mapEmplace m.map c v with hl | hl <;> omega
  · unfold Mat.size
    rw [hmap]
    by_cases hv : v = d
    · rw [if_pos hv]
      exact length_le_mapErase c hwf
    · rw [if_neg hv]
      rcases length_mapEmplace m.map c v with hl | hl <;> omega

/-- C9 witness: writing at `(0,1)` leaves the value at `(1,2)` intact. -/
theorem write_frame_effect_witness :
    (StoreWF sampleMat ∧ ([0, 1] : List Nat) ≠ [] ∧ ([1, 2] : List Nat) ≠ []
     ∧ ([1, 2] : List Nat) ≠ [0, 1]) ∧
    ((indexRead 0 (indexWrite 0 sampleMat [0, 1] 7) [1, 2]).1
        = (indexRead 0 sampleMat [1, 2]).1
     ∧ (indexWrite 0 sampleMat [0, 1] 7).size ≤ sampleMat.size + 1
     ∧ sampleMat.size ≤ (indexWrite 0 sampleMat [0, 1] 7).size + 1) :=
  ⟨⟨by unfold StoreWF sampleMat; decide, by decide, by decide, by decide⟩,
   write_frame_effect 0 7 sampleMat [0, 1] [1, 2]
     (by unfold StoreWF sampleMat; decide) (by decide) (by decide) (by decide)⟩

/-- C10: a freshly constructed matrix is empty: its size is zero, its first
iterator position already equals its end position, and iterating it yields
nothing. -/
theorem fresh_matrix_empty :
    mkMatrix.size = 0 ∧ mbegin mkMatrix = mend mkMatrix ∧ entries mkMatrix = [] :=
  ⟨rfl, rfl, rfl⟩
